import Mathlib

/-!
Verification of the reentrant, exclusive-biased reader-writer lock in
rwlock/rwlock.py.

The mutable object `_RWLockCore` is embedded as the record `LockState`
(fields `state`, `waiting`, `owning`, exactly the Python attributes).
Each method becomes a pure function from the pre-state to an
`Except`-wrapped post-state: a Python `raise RuntimeError(...)` is the
`.error` constructor (the raise happens before any mutation in the
source, so no post-state accompanies it), and `self.cond.notify_all()`
is recorded as a `Bool` in the result.  The `wait_for` loop is embedded
with explicit fuel (the loop may run forever), a rational-valued clock
`t` standing for `time.time()`, and an oracle list `δs` giving the real
duration of each `self.cond.wait(...)` call (spurious wakeups are
allowed, so a wait may last any non-negative amount of time regardless
of the timeout passed to it).  No other thread mutates the state during
a wait in this single-caller model; the claims proved below are all
about the effect of one call on the shared state.
-/

/-- Thread identities, the values returned by `get_ident()`. -/
abbrev Tid := Nat

/-- The mutable fields of `_RWLockCore`: `state` (positive = shared count,
negative = exclusive recursion depth), `waiting` (writers currently blocked),
`owning` (one entry appended per successful acquisition). -/
structure LockState where
  state : Int
  waiting : Int
  owning : List Tid
  deriving DecidableEq, Repr

/-- The two `RuntimeError`s raised by `_RWLockCore`: the read-to-write
upgrade rejection and the release-of-an-unacquired-lock rejection. -/
inductive LockError where
  | upgrade
  | unacquired
  deriving DecidableEq, Repr

namespace RWLockCore

/-- `_RWLockCore._acquire_write`: admit (mutating `state` and `owning`) when
the lock is free or held exclusively by the caller; raise the upgrade error
when the caller holds only shared stakes; otherwise report inadmissible
without mutating. -/
def acquireWriteStep (me : Tid) (s : LockState) : Except LockError (Bool × LockState) :=
  if s.state = 0 ∨ (s.state < 0 ∧ me ∈ s.owning) then
    .ok (true, { s with state := s.state - 1, owning := s.owning ++ [me] })
  else if 0 < s.state ∧ me ∈ s.owning then
    .error .upgrade
  else
    .ok (false, s)

/-- `_RWLockCore._acquire_read`: in exclusive mode delegate to the write
predicate; otherwise apply the exclusive bias (`not self.waiting` admits,
else only re-entry by a current owner admits). -/
def acquireReadStep (me : Tid) (s : LockState) : Except LockError (Bool × LockState) :=
  if s.state < 0 then
    acquireWriteStep me s
  else if (if s.waiting = 0 then true else decide (me ∈ s.owning)) then
    .ok (true, { s with state := s.state + 1, owning := s.owning ++ [me] })
  else
    .ok (false, s)

/-- `_RWLockCore.release`: remove the first occurrence of the caller from
`owning` (error if absent), move `state` one step toward zero, and report
whether `notify_all` was broadcast (exactly when the new state is zero). -/
def release (me : Tid) (s : LockState) : Except LockError (LockState × Bool) :=
  if me ∈ s.owning then
    if 0 < s.state then
      .ok ({ s with owning := s.owning.erase me, state := s.state - 1 },
           decide (s.state - 1 = 0))
    else
      .ok ({ s with owning := s.owning.erase me, state := s.state + 1 },
           decide (s.state + 1 = 0))
  else
    .error .unacquired

/-- `release` iterated a given number of times (propagating the first error),
used to express how many single releases fully unlock the lock. -/
def releaseN (me : Tid) : Nat → LockState → Except LockError LockState
  | 0, s => .ok s
  | n + 1, s =>
    match release me s with
    | .ok (s1, _) => releaseN me n s1
    | .error e => .error e

/-- `_RWLockCore._is_owned`: exclusive mode and the caller is in `owning`. -/
def isOwned (me : Tid) (s : LockState) : Bool :=
  decide (s.state < 0 ∧ me ∈ s.owning)

/-- `_RWLockCore._release_save`: if the caller appears in `owning`, hand the
whole `owning` list back as the token, empty it, zero `state`, and broadcast
(`notify_all`, the final `Bool`, is unconditionally true on success). -/
def releaseSave (me : Tid) (s : LockState) : Except LockError (List Tid × LockState × Bool) :=
  if me ∈ s.owning then
    .ok (s.owning, { s with owning := [], state := 0 }, true)
  else
    .error .unacquired

/-- `_RWLockCore._acquire_restore`: run `acquire_write()` (no timeout, so the
caller blocks until the write predicate admits; `waiting` is incremented
around the attempt and restored), then overwrite `owning` with the token and
`state` with the negated token length.  `.ok none` models the caller still
blocked on the condition variable; with no other thread intervening the
first predicate evaluation decides the call. -/
def acquireRestore (me : Tid) (x : List Tid) (s : LockState) :
    Except LockError (Option LockState) :=
  match acquireWriteStep me { s with waiting := s.waiting + 1 } with
  | .ok (true, s1) =>
      .ok (some { s1 with waiting := s1.waiting - 1, owning := x, state := -(x.length : Int) })
  | .ok (false, _) => .ok none
  | .error e => .error e

/-- Outcome tag for one run of the `wait_for` loop. -/
inductive WaitStatus where
  | success
  | timedOut
  | raised (e : LockError)
  | outOfFuel
  deriving DecidableEq, Repr

/-- Result of a `wait_for` run: outcome tag, final state, number of
predicate evaluations performed, number of `cond.wait` calls performed. -/
structure WaitResult (σ : Type) where
  status : WaitStatus
  final : σ
  evals : Nat
  waits : Nat
  deriving DecidableEq, Repr

/-- The timeout bookkeeping at the top of the `while not result` body of
`wait_for`: `none` means the `break` (time budget exhausted) is taken,
otherwise the updated `(waittime, endtime)` pair is returned.  On the first
pass with a timeout, `endtime` is set to `time.time() + waittime` and no
expiry check happens; afterwards `waittime` is recomputed from `endtime`. -/
def waitForCheck (waittime endtime : Option ℚ) (t : ℚ) : Option (Option ℚ × Option ℚ) :=
  match waittime, endtime with
  | none, e => some (none, e)
  | some w, none => some (some w, some (t + w))
  | some _, some e => if e - t ≤ 0 then none else some (some (e - t), some e)

/-- The `while not result` loop of `_RWLockCore.wait_for`, entered with the
initial predicate evaluation already false.  Each iteration runs the
bookkeeping, performs one `cond.wait` (advancing the clock by the next
oracle entry), and re-evaluates the predicate. -/
def waitForLoop {σ : Type} (pred : σ → Except LockError (Bool × σ))
    (waittime endtime : Option ℚ) (t : ℚ) (δs : List ℚ)
    (s : σ) (evals waits : Nat) : Nat → WaitResult σ
  | 0 => ⟨.outOfFuel, s, evals, waits⟩
  | fuel + 1 =>
    match waitForCheck waittime endtime t with
    | none => ⟨.timedOut, s, evals, waits⟩
    | some (waittime1, endtime1) =>
      match pred s with
      | .error e => ⟨.raised e, s, evals + 1, waits + 1⟩
      | .ok (true, s1) => ⟨.success, s1, evals + 1, waits + 1⟩
      | .ok (false, s1) =>
          waitForLoop pred waittime1 endtime1 (t + δs.headD 0) δs.tail s1
            (evals + 1) (waits + 1) fuel

/-- `_RWLockCore.wait_for`: evaluate the predicate once; if true return
immediately (no wait), otherwise enter the loop with `endtime = None` and
`waittime = timeout`. -/
def waitFor {σ : Type} (pred : σ → Except LockError (Bool × σ))
    (timeout : Option ℚ) (t : ℚ) (δs : List ℚ) (fuel : Nat) (s : σ) : WaitResult σ :=
  match pred s with
  | .error e => ⟨.raised e, s, 1, 0⟩
  | .ok (true, s1) => ⟨.success, s1, 1, 0⟩
  | .ok (false, s1) => waitForLoop pred timeout none t δs s1 1 0 fuel

/-- `_RWLockCore.acquire_read`: `wait_for` over the read predicate. -/
def acquireRead (me : Tid) (timeout : Option ℚ) (t : ℚ) (δs : List ℚ) (fuel : Nat)
    (s : LockState) : WaitResult LockState :=
  waitFor (acquireReadStep me) timeout t δs fuel s

/-- `_RWLockCore.acquire_write`: increment `waiting`, run `wait_for` over the
write predicate, and decrement `waiting` in the `finally` block — on every
exit path, including a raised upgrade error. -/
def acquireWrite (me : Tid) (timeout : Option ℚ) (t : ℚ) (δs : List ℚ) (fuel : Nat)
    (s : LockState) : WaitResult LockState :=
  let r := waitFor (acquireWriteStep me) timeout t δs fuel
    { s with waiting := s.waiting + 1 }
  { r with final := { r.final with waiting := r.final.waiting - 1 } }

end RWLockCore

/-- The `ValueError`s raised by `_ReaderLock._timeout`. -/
inductive TimeoutError where
  | invalidTimeout
  | nonBlockingTimeout
  deriving DecidableEq, Repr

namespace ReaderLock

/-- `_ReaderLock._timeout`: translate the `(blocking, timeout)` calling
convention into the core's optional-duration convention (`none` = wait
forever, `some 0` = the already-expired sentinel). -/
def timeoutConv (blocking : Bool) (timeout : ℚ) : Except TimeoutError (Option ℚ) :=
  if timeout < 0 ∧ timeout ≠ -1 then .error .invalidTimeout
  else if blocking then .ok (if 0 ≤ timeout then some timeout else none)
  else if 0 < timeout then .error .nonBlockingTimeout
  else .ok (some 0)

end ReaderLock

/-- All entries of a list are one and the same identity. -/
def AllSame (l : List Tid) : Prop := ∀ a ∈ l, ∀ b ∈ l, a = b

instance (l : List Tid) : Decidable (AllSame l) :=
  inferInstanceAs (Decidable (∀ a ∈ l, ∀ b ∈ l, a = b))

/-- The documented state invariant of `_RWLockCore`: in shared mode `owning`
has exactly `state` entries; in exclusive mode it has exactly `-state`
entries all naming one thread; when unlocked it is empty; and `waiting` is
never negative. -/
def LockInv (s : LockState) : Prop :=
  (0 < s.state → (s.owning.length : Int) = s.state) ∧
  (s.state < 0 → (s.owning.length : Int) = -s.state ∧ AllSame s.owning) ∧
  (s.state = 0 → s.owning = []) ∧
  0 ≤ s.waiting

instance (s : LockState) : Decidable (LockInv s) := by
  unfold LockInv
  infer_instance

namespace RWLockCore

theorem acquireWriteStep_false_eq {me : Tid} {s s1 : LockState}
    (h : acquireWriteStep me s = .ok (false, s1)) : s1 = s := by
  unfold acquireWriteStep at h
  split_ifs at h
  all_goals first
    | (injection h with h'; injection h' with hb hs; exact hs.symm)
    | (injection h with h'; injection h' with hb hs; exact Bool.noConfusion hb)
    | injection h

theorem acquireReadStep_false_eq {me : Tid} {s s1 : LockState}
    (h : acquireReadStep me s = .ok (false, s1)) : s1 = s := by
  unfold acquireReadStep at h
  split_ifs at h
  · exact acquireWriteStep_false_eq h
  all_goals first
    | (injection h with h'; injection h' with hb hs; exact hs.symm)
    | (injection h with h'; injection h' with hb hs; exact Bool.noConfusion hb)
    | injection h

theorem acquireWriteStep_waiting {me : Tid} {s s1 : LockState} {b : Bool}
    (h : acquireWriteStep me s = .ok (b, s1)) : s1.waiting = s.waiting := by
  unfold acquireWriteStep at h
  split_ifs at h
  all_goals first
    | (injection h with h'; injection h' with hb hs; subst hs; rfl)
    | injection h

theorem acquireReadStep_waiting {me : Tid} {s s1 : LockState} {b : Bool}
    (h : acquireReadStep me s = .ok (b, s1)) : s1.waiting = s.waiting := by
  unfold acquireReadStep at h
  split_ifs at h
  · exact acquireWriteStep_waiting h
  all_goals first
    | (injection h with h'; injection h' with hb hs; subst hs; rfl)
    | injection h

theorem acquireWriteStep_upgrade {me : Tid} {s : LockState} (hs : 0 < s.state)
    (hme : me ∈ s.owning) : acquireWriteStep me s = .error .upgrade := by
  unfold acquireWriteStep
  split_ifs with hc1 hc2
  · exfalso; rcases hc1 with h | ⟨h, -⟩ <;> omega
  · rfl
  · exact absurd ⟨hs, hme⟩ hc2

/-- Claim C2: a write acquisition by a thread whose identity is in `owning`
while `state > 0` (the caller holds only shared stakes) raises the upgrade
error on the first predicate evaluation — one evaluation, no wait on the
condition variable — and the final shared state equals the initial one, so
the caller still holds its read stake. -/
theorem upgradeAttemptRaises (me : Tid) (timeout : Option ℚ) (t : ℚ) (δs : List ℚ)
    (fuel : Nat) (s : LockState) (hs : 0 < s.state) (hme : me ∈ s.owning) :
    acquireWrite me timeout t δs fuel s = ⟨.raised .upgrade, s, 1, 0⟩ := by
  have h1 : acquireWriteStep me { s with waiting := s.waiting + 1 } = .error .upgrade :=
    acquireWriteStep_upgrade hs hme
  simp [acquireWrite, waitFor, h1, add_sub_cancel_right]

/-- Concrete run of the claim C2 theorem: thread 1 holds a shared stake in
state 2 and its write attempt raises immediately, leaving the state intact. -/
theorem upgradeAttemptRaises_check :
    acquireWrite 1 none 0 [] 5 ⟨2, 0, [1, 2]⟩ =
      ⟨.raised .upgrade, ⟨2, 0, [1, 2]⟩, 1, 0⟩ :=
  upgradeAttemptRaises 1 none 0 [] 5 ⟨2, 0, [1, 2]⟩ (by decide) (by decide)

/-- Claim C3: release by a non-owner fails with the unacquired error (and, the
raise happening before any mutation, changes nothing); release by an owner
removes exactly one occurrence of the caller (count of the caller drops by
one, every other count is kept), moves `state` one step toward zero, keeps
`waiting`, and broadcasts exactly when the new state is zero. -/
theorem release_spec (me : Tid) (s : LockState) :
    (me ∉ s.owning → release me s = .error .unacquired) ∧
    (me ∈ s.owning →
      release me s =
        .ok ({ s with owning := s.owning.erase me,
                      state := if 0 < s.state then s.state - 1 else s.state + 1 },
             decide ((if 0 < s.state then s.state - 1 else s.state + 1) = 0)) ∧
      (s.owning.erase me).count me + 1 = s.owning.count me ∧
      (∀ x : Tid, x ≠ me → (s.owning.erase me).count x = s.owning.count x) ∧
      (s.owning.erase me).length + 1 = s.owning.length) := by
  constructor
  · intro h; unfold release; rw [if_neg h]
  · intro h
    refine ⟨?_, ?_, ?_, ?_⟩
    · unfold release
      rw [if_pos h]
      by_cases hc : 0 < s.state <;> simp [hc]
    · have h1 := List.count_erase_self me s.owning
      have h2 : 0 < s.owning.count me := List.count_pos_iff.mpr h
      omega
    · intro x hx
      exact List.count_erase_of_ne hx s.owning
    · have h1 := List.length_erase_of_mem h
      have h2 : 0 < s.owning.length := List.length_pos.mpr (List.ne_nil_of_mem h)
      omega

/-- Concrete run of the claim C3 theorem: thread 1 releases one of the two
shared stakes, no broadcast since the new state is 1. -/
theorem release_spec_check :
    release 1 ⟨2, 0, [1, 2]⟩ = .ok (⟨1, 0, [2]⟩, false) :=
  ((release_spec 1 ⟨2, 0, [1, 2]⟩).2 (by decide)).1.trans (by rfl)

/-- Claim C4: with `state ≥ 0` the read predicate admits exactly when no
writer is waiting or the caller already owns a stake; admission increments
`state` by one and appends the caller, non-admission mutates nothing. -/
theorem readAdmissionShared (me : Tid) (s : LockState) (hs : 0 ≤ s.state) :
    ((s.waiting = 0 ∨ me ∈ s.owning) →
      acquireReadStep me s =
        .ok (true, { s with state := s.state + 1, owning := s.owning ++ [me] })) ∧
    (s.waiting ≠ 0 → me ∉ s.owning → acquireReadStep me s = .ok (false, s)) := by
  have hns : ¬ s.state < 0 := not_lt.mpr hs
  constructor
  · rintro (h | h)
    · simp [acquireReadStep, hns, h]
    · by_cases hw : s.waiting = 0 <;> simp [acquireReadStep, hns, hw, h]
  · intro hw hm
    simp [acquireReadStep, hns, hw, hm]

/-- Concrete run of the claim C4 theorem: thread 3 re-enters in read mode past
a waiting writer because it already owns a stake. -/
theorem readAdmissionShared_check :
    acquireReadStep 3 ⟨1, 1, [3]⟩ = .ok (true, ⟨2, 1, [3, 3]⟩) :=
  ((readAdmissionShared 3 ⟨1, 1, [3]⟩ (by decide)).1 (Or.inr (by decide))).trans (by rfl)

/-- Claim C6: with `state < 0` the read predicate is the write predicate; an
owner gets one more exclusive stake (state decremented by one, identity
appended) and a non-owner is not admitted and keeps waiting. -/
theorem readDelegatesExclusive (me : Tid) (s : LockState) (hs : s.state < 0) :
    acquireReadStep me s = acquireWriteStep me s ∧
    (me ∈ s.owning →
      acquireReadStep me s =
        .ok (true, { s with state := s.state - 1, owning := s.owning ++ [me] })) ∧
    (me ∉ s.owning → acquireReadStep me s = .ok (false, s)) := by
  have hdel : acquireReadStep me s = acquireWriteStep me s := by
    simp [acquireReadStep, hs]
  have hne : s.state ≠ 0 := by omega
  have hng : ¬ 0 < s.state := by omega
  refine ⟨hdel, ?_, ?_⟩
  · intro h
    rw [hdel]
    simp [acquireWriteStep, hs, h, hne]
  · intro h
    rw [hdel]
    simp [acquireWriteStep, hne, hng, h]

/-- Concrete run of the claim C6 theorem: thread 5 holds the lock exclusively
twice and its read request becomes a third exclusive stake. -/
theorem readDelegatesExclusive_check :
    acquireReadStep 5 ⟨-2, 0, [5, 5]⟩ = .ok (true, ⟨-3, 0, [5, 5, 5]⟩) :=
  ((readDelegatesExclusive 5 ⟨-2, 0, [5, 5]⟩ (by decide)).2.1 (by decide)).trans (by rfl)

/-- Claim C10: `_release_save` only checks membership in `owning`, never that
the lock is exclusive: any stakeholder (also one holding a single shared
stake among others) gets the whole `owning` list as token while the state is
reset to empty/zero and all waiters are broadcast-woken; only a thread with
no stake at all gets the unacquired error. -/
theorem releaseSaveSpec (me : Tid) (s : LockState) :
    (me ∈ s.owning →
      releaseSave me s = .ok (s.owning, { s with owning := [], state := 0 }, true)) ∧
    (me ∉ s.owning → releaseSave me s = .error .unacquired) := by
  constructor
  · intro h; unfold releaseSave; rw [if_pos h]
  · intro h; unfold releaseSave; rw [if_neg h]

/-- Concrete run of the claim C10 theorem: thread 1 holds one of two shared
stakes (state 2, not exclusive) and release-save still succeeds, returning
thread 2's stake inside the token and clearing the whole state. -/
theorem releaseSaveSpec_check :
    releaseSave 1 ⟨2, 0, [1, 2]⟩ = .ok ([1, 2], ⟨0, 0, []⟩, true) :=
  ((releaseSaveSpec 1 ⟨2, 0, [1, 2]⟩).1 (by decide)).trans (by rfl)

end RWLockCore

namespace RWLockCore

theorem release_exclusive_replicate (me : Tid) (w : Int) (n : Nat) :
    release me ⟨-((n + 1 : Nat) : Int), w, List.replicate (n + 1) me⟩ =
      .ok (⟨-((n : Nat) : Int), w, List.replicate n me⟩,
           decide (-((n : Nat) : Int) = 0)) := by
  have hmem : me ∈ List.replicate (n + 1) me :=
    List.mem_replicate.mpr ⟨Nat.succ_ne_zero n, rfl⟩
  have hneg : ¬ (0 < -((n + 1 : Nat) : Int)) := by push_cast; omega
  have h1 : (List.replicate (n + 1) me).erase me = List.replicate n me := by
    rw [List.replicate_succ, List.erase_cons_head]
  have h2 : -((n + 1 : Nat) : Int) + 1 = -((n : Nat) : Int) := by push_cast; ring
  unfold release
  dsimp only
  rw [if_pos hmem, if_neg hneg, h1, h2]

theorem releaseN_replicate (me : Tid) (w : Int) :
    ∀ (k j : Nat),
      releaseN me k ⟨-((j + k : Nat) : Int), w, List.replicate (j + k) me⟩ =
        .ok ⟨-((j : Nat) : Int), w, List.replicate j me⟩ := by
  intro k
  induction k with
  | zero =>
    intro j
    simp [releaseN]
  | succ k ih =>
    intro j
    have hjk : j + (k + 1) = (j + k) + 1 := by omega
    rw [hjk]
    simp only [releaseN]
    rw [release_exclusive_replicate me w (j + k)]
    exact ih j

/-- Claim C5: from an exclusive hold of depth d (state = -d, owning = d copies
of the caller), release-save returns the d-copy token and empties the state;
acquire-restore with that token (nobody intervening, so the inner write
acquisition succeeds on its first evaluation) rebuilds exactly state = -d and
the d-copy owning list; the caller then passes the ownership check, and d
single releases — no fewer — bring the state back to 0. -/
theorem saveRestoreRoundTrip (me : Tid) (d : Nat) (w : Int) (hd : 0 < d) :
    releaseSave me ⟨-(d : Int), w, List.replicate d me⟩ =
      .ok (List.replicate d me, ⟨0, w, []⟩, true) ∧
    acquireRestore me (List.replicate d me) ⟨0, w, []⟩ =
      .ok (some ⟨-(d : Int), w, List.replicate d me⟩) ∧
    isOwned me ⟨-(d : Int), w, List.replicate d me⟩ = true ∧
    releaseN me d ⟨-(d : Int), w, List.replicate d me⟩ = .ok ⟨0, w, []⟩ ∧
    (∀ k, k < d → ∀ sk,
      releaseN me k ⟨-(d : Int), w, List.replicate d me⟩ = .ok sk → sk.state ≠ 0) := by
  have hmem : me ∈ List.replicate d me := List.mem_replicate.mpr ⟨hd.ne', rfl⟩
  refine ⟨?_, ?_, ?_, ?_, ?_⟩
  · unfold releaseSave
    rw [if_pos hmem]
  · have hw : acquireWriteStep me ⟨0, w + 1, []⟩ = .ok (true, ⟨-1, w + 1, [me]⟩) := by
      unfold acquireWriteStep
      rw [if_pos (Or.inl rfl)]
      norm_num
    unfold acquireRestore
    dsimp only
    rw [hw]
    simp [add_sub_cancel_right]
  · simp only [isOwned, decide_eq_true_eq]
    exact ⟨by omega, hmem⟩
  · simpa using releaseN_replicate me w d 0
  · intro k hk sk hsk
    have h := releaseN_replicate me w k (d - k)
    have hdk : d - k + k = d := by omega
    rw [hdk] at h
    have hx := Except.ok.inj (h.symm.trans hsk)
    rw [← hx]
    dsimp only
    omega

/-- Concrete run of the claim C5 theorem: depth 2 for thread 5 is saved,
restored, owned, and released in exactly two steps. -/
theorem saveRestoreRoundTrip_check :
    releaseSave 5 ⟨-2, 0, [5, 5]⟩ = .ok ([5, 5], ⟨0, 0, []⟩, true) ∧
    acquireRestore 5 [5, 5] ⟨0, 0, []⟩ = .ok (some ⟨-2, 0, [5, 5]⟩) ∧
    isOwned 5 ⟨-2, 0, [5, 5]⟩ = true ∧
    releaseN 5 2 ⟨-2, 0, [5, 5]⟩ = .ok ⟨0, 0, []⟩ := by
  have h := saveRestoreRoundTrip 5 2 0 (by decide)
  exact ⟨h.1, h.2.1, h.2.2.1, h.2.2.2.1⟩

end RWLockCore

theorem allSame_singleton (x : Tid) : AllSame [x] := by
  intro a ha b hb
  rw [List.mem_singleton] at ha hb
  rw [ha, hb]

theorem allSame_append {l : List Tid} {me : Tid} (h : AllSame l) (hme : me ∈ l) :
    AllSame (l ++ [me]) := by
  intro a ha b hb
  rw [List.mem_append, List.mem_singleton] at ha hb
  rcases ha with ha | ha <;> rcases hb with hb | hb
  · exact h a ha b hb
  · exact (h a ha me hme).trans hb.symm
  · exact ha.trans (h me hme b hb)
  · exact ha.trans hb.symm

theorem allSame_erase {l : List Tid} (h : AllSame l) (x : Tid) : AllSame (l.erase x) := by
  intro a ha b hb
  exact h a (List.mem_of_mem_erase ha) b (List.mem_of_mem_erase hb)

theorem lockInv_def (a w : Int) (l : List Tid) :
    LockInv ⟨a, w, l⟩ ↔
      ((0 < a → (l.length : Int) = a) ∧
       (a < 0 → (l.length : Int) = -a ∧ AllSame l) ∧
       (a = 0 → l = []) ∧ 0 ≤ w) := Iff.rfl

namespace RWLockCore

theorem acquireWriteStep_inv {me : Tid} {s s1 : LockState} {b : Bool} (hInv : LockInv s)
    (h : acquireWriteStep me s = .ok (b, s1)) : LockInv s1 := by
  obtain ⟨a, wtg, l⟩ := s
  rw [lockInv_def] at hInv
  obtain ⟨h1, h2, h3, h4⟩ := hInv
  unfold acquireWriteStep at h
  dsimp only at h
  split_ifs at h with hc1 hc2
  · injection h with h'
    injection h' with hb hs
    subst hs
    rw [lockInv_def]
    rcases hc1 with hz | ⟨hneg, hmem⟩
    · have hemp : l = [] := h3 hz
      subst hemp
      refine ⟨fun hc => absurd hc (by omega), fun _ => ⟨by simp; omega, ?_⟩,
              fun hc => absurd hc (by omega), h4⟩
      simpa using allSame_singleton me
    · have hlen := (h2 hneg).1
      refine ⟨fun hc => absurd hc (by omega), fun _ => ⟨by simp; omega, ?_⟩,
              fun hc => absurd hc (by omega), h4⟩
      exact allSame_append (h2 hneg).2 hmem
  · injection h with h'
    injection h' with hb hs
    subst hs
    rw [lockInv_def]
    exact ⟨h1, h2, h3, h4⟩

theorem acquireReadStep_inv {me : Tid} {s s1 : LockState} {b : Bool} (hInv : LockInv s)
    (h : acquireReadStep me s = .ok (b, s1)) : LockInv s1 := by
  unfold acquireReadStep at h
  by_cases hneg : s.state < 0
  · rw [if_pos hneg] at h
    exact acquireWriteStep_inv hInv h
  · rw [if_neg hneg] at h
    obtain ⟨a, wtg, l⟩ := s
    rw [lockInv_def] at hInv
    obtain ⟨h1, h2, h3, h4⟩ := hInv
    dsimp only at h hneg
    have hlen : (l.length : Int) = a := by
      rcases eq_or_lt_of_le (not_lt.mp hneg) with heq | hlt
      · rw [h3 heq.symm]
        simpa using heq
      · exact h1 hlt
    split_ifs at h
    all_goals
      injection h with h'
      injection h' with hb hs
      subst hs
      rw [lockInv_def]
      first
        | exact ⟨h1, h2, h3, h4⟩
        | exact ⟨fun _ => by
                   simp only [List.length_append, List.length_singleton,
                     Nat.cast_add, Nat.cast_one]
                   omega,
                 fun hc => absurd hc (by omega),
                 fun hc => absurd hc (by omega), h4⟩

theorem release_inv {me : Tid} {s s1 : LockState} {n : Bool} (hInv : LockInv s)
    (h : release me s = .ok (s1, n)) : LockInv s1 := by
  obtain ⟨a, wtg, l⟩ := s
  rw [lockInv_def] at hInv
  obtain ⟨h1, h2, h3, h4⟩ := hInv
  unfold release at h
  dsimp only at h
  split_ifs at h with hmem hpos
  · injection h with h'
    injection h' with hs hn
    subst hs
    have hlen : (l.length : Int) = a := h1 hpos
    have hlenE : (l.erase me).length = l.length - 1 := List.length_erase_of_mem hmem
    have hlpos : 0 < l.length := List.length_pos.mpr (List.ne_nil_of_mem hmem)
    rw [lockInv_def]
    refine ⟨fun _ => by omega, fun hc => absurd hc (by omega), fun _ => ?_, h4⟩
    exact List.length_eq_zero.mp (by omega)
  · injection h with h'
    injection h' with hs hn
    subst hs
    have hne : l ≠ [] := List.ne_nil_of_mem hmem
    have haneg : a < 0 := by
      rcases lt_trichotomy a 0 with hlt | heq | hgt
      · exact hlt
      · exact absurd (h3 heq) hne
      · exact absurd hgt hpos
    obtain ⟨hlen, hsame⟩ := h2 haneg
    have hlenE : (l.erase me).length = l.length - 1 := List.length_erase_of_mem hmem
    have hlpos : 0 < l.length := List.length_pos.mpr hne
    rw [lockInv_def]
    refine ⟨fun hc => absurd hc (by omega), fun _ => ⟨by omega, allSame_erase hsame me⟩,
            fun _ => ?_, h4⟩
    exact List.length_eq_zero.mp (by omega)

theorem releaseSave_inv {me : Tid} {s s1 : LockState} {tok : List Tid} {n : Bool}
    (hInv : LockInv s) (h : releaseSave me s = .ok (tok, s1, n)) : LockInv s1 := by
  obtain ⟨a, wtg, l⟩ := s
  rw [lockInv_def] at hInv
  unfold releaseSave at h
  dsimp only at h
  split_ifs at h with hmem
  · injection h with h'
    injection h' with ht h''
    injection h'' with hs hn
    subst hs
    rw [lockInv_def]
    exact ⟨fun hc => absurd hc (by omega), fun hc => absurd hc (by omega),
           fun _ => rfl, hInv.2.2.2⟩

theorem acquireRestore_inv {me : Tid} {x : List Tid} {s s1 : LockState} (hInv : LockInv s)
    (hx : AllSame x) (h : acquireRestore me x s = .ok (some s1)) : LockInv s1 := by
  unfold acquireRestore at h
  cases hw : acquireWriteStep me { s with waiting := s.waiting + 1 } with
  | error e =>
    rw [hw] at h
    injection h
  | ok r =>
    obtain ⟨b, s2⟩ := r
    rw [hw] at h
    cases b
    · injection h with h'
      injection h'
    · injection h with h'
      injection h' with hs
      subst hs
      have hwait : s2.waiting = s.waiting + 1 := acquireWriteStep_waiting hw
      have hw0 : 0 ≤ s.waiting := by
        obtain ⟨a, wtg, l⟩ := s
        exact hInv.2.2.2
      rw [lockInv_def]
      refine ⟨fun hc => absurd hc (by omega), fun _ => ⟨by omega, hx⟩, fun hc => ?_, by omega⟩
      exact List.length_eq_zero.mp (by omega)

/-- Claim C1 (amended): from any state satisfying the documented invariant,
the read and write admission steps, release, and release-save reach only
states satisfying it again; acquire-restore does so provided all entries of
the token name one and the same thread (which is what release-save returns
from a genuinely exclusive hold).  Without that proviso the claim fails, see
the counterexample. -/
theorem invariantPreservation (s : LockState) (hInv : LockInv s) :
    (∀ me b s1, acquireReadStep me s = .ok (b, s1) → LockInv s1) ∧
    (∀ me b s1, acquireWriteStep me s = .ok (b, s1) → LockInv s1) ∧
    (∀ me s1 n, release me s = .ok (s1, n) → LockInv s1) ∧
    (∀ me tok s1 n, releaseSave me s = .ok (tok, s1, n) → LockInv s1) ∧
    (∀ me x s1, AllSame x → acquireRestore me x s = .ok (some s1) → LockInv s1) :=
  ⟨fun _ _ _ h => acquireReadStep_inv hInv h,
   fun _ _ _ h => acquireWriteStep_inv hInv h,
   fun _ _ _ h => release_inv hInv h,
   fun _ _ _ _ h => releaseSave_inv hInv h,
   fun _ _ _ hx h => acquireRestore_inv hInv hx h⟩

/-- Concrete runs of the claim C1 theorem: a first read acquisition from the
unlocked state and a restore with a uniform two-entry token both land in
invariant states. -/
theorem invariantPreservation_check :
    LockInv ⟨1, 0, [7]⟩ ∧ LockInv ⟨-2, 0, [5, 5]⟩ := by
  have h := invariantPreservation ⟨0, 0, []⟩ (by decide)
  exact ⟨h.1 7 true ⟨1, 0, [7]⟩ (by rfl),
         h.2.2.2.2 5 [5, 5] ⟨-2, 0, [5, 5]⟩ (by decide) (by rfl)⟩

/-- Claim C1 counterexample: the restore operation applied to the mixed token
[1, 2] — obtainable from release-save called while two different threads hold
shared stakes — produces state -2 with two distinct identities in `owning`,
violating the exclusive-mode clause of the invariant. -/
theorem invariantRestoreCounterexample :
    LockInv ⟨0, 0, []⟩ ∧
    acquireRestore 1 [1, 2] ⟨0, 0, []⟩ = .ok (some ⟨-2, 0, [1, 2]⟩) ∧
    ¬ LockInv ⟨-2, 0, [1, 2]⟩ :=
  ⟨by decide, by rfl, by decide⟩

end RWLockCore

namespace RWLockCore

theorem waitForLoop_frame {σ : Type} (pred : σ → Except LockError (Bool × σ))
    (hpred : ∀ u s1, pred u = .ok (false, s1) → s1 = u) :
    ∀ (fuel : Nat) (wt et : Option ℚ) (t : ℚ) (δs : List ℚ) (s : σ) (ev wa : Nat),
      (waitForLoop pred wt et t δs s ev wa fuel).status ≠ .success →
      (waitForLoop pred wt et t δs s ev wa fuel).final = s := by
  intro fuel
  induction fuel with
  | zero =>
    intro wt et t δs s ev wa _
    rfl
  | succ n ih =>
    intro wt et t δs s ev wa hst
    cases hchk : waitForCheck wt et t with
    | none =>
      simp only [waitForLoop, hchk]
    | some p =>
      obtain ⟨wt1, et1⟩ := p
      cases hp : pred s with
      | error e =>
        simp only [waitForLoop, hchk, hp]
      | ok bs =>
        obtain ⟨b, s1⟩ := bs
        cases b with
        | true =>
          simp only [waitForLoop, hchk, hp] at hst
          exact absurd rfl hst
        | false =>
          have hs1 : s1 = s := hpred s s1 hp
          subst hs1
          simp only [waitForLoop, hchk, hp] at hst ⊢
          exact ih wt1 et1 (t + δs.headD 0) δs.tail s1 (ev + 1) (wa + 1) hst

theorem waitFor_frame {σ : Type} (pred : σ → Except LockError (Bool × σ))
    (hpred : ∀ u s1, pred u = .ok (false, s1) → s1 = u)
    (timeout : Option ℚ) (t : ℚ) (δs : List ℚ) (fuel : Nat) (s : σ)
    (hst : (waitFor pred timeout t δs fuel s).status ≠ .success) :
    (waitFor pred timeout t δs fuel s).final = s := by
  unfold waitFor at hst ⊢
  cases hp : pred s with
  | error e =>
    simp only [hp]
  | ok bs =>
    obtain ⟨b, s1⟩ := bs
    cases b with
    | true =>
      simp only [hp] at hst
      exact absurd rfl hst
    | false =>
      have hs1 : s1 = s := hpred s s1 hp
      subst hs1
      simp only [hp] at hst ⊢
      exact waitForLoop_frame pred hpred fuel timeout none t δs s1 1 0 hst

theorem waitForLoop_keeps {σ : Type} (pred : σ → Except LockError (Bool × σ))
    (P : σ → Prop) (hpred : ∀ u b s1, pred u = .ok (b, s1) → P u → P s1) :
    ∀ (fuel : Nat) (wt et : Option ℚ) (t : ℚ) (δs : List ℚ) (s : σ) (ev wa : Nat),
      P s → P (waitForLoop pred wt et t δs s ev wa fuel).final := by
  intro fuel
  induction fuel with
  | zero =>
    intro wt et t δs s ev wa hP
    exact hP
  | succ n ih =>
    intro wt et t δs s ev wa hP
    cases hchk : waitForCheck wt et t with
    | none =>
      simp only [waitForLoop, hchk]
      exact hP
    | some p =>
      obtain ⟨wt1, et1⟩ := p
      cases hp : pred s with
      | error e =>
        simp only [waitForLoop, hchk, hp]
        exact hP
      | ok bs =>
        obtain ⟨b, s1⟩ := bs
        cases b with
        | true =>
          simp only [waitForLoop, hchk, hp]
          exact hpred s true s1 hp hP
        | false =>
          simp only [waitForLoop, hchk, hp]
          exact ih wt1 et1 (t + δs.headD 0) δs.tail s1 (ev + 1) (wa + 1)
            (hpred s false s1 hp hP)

theorem waitFor_keeps {σ : Type} (pred : σ → Except LockError (Bool × σ))
    (P : σ → Prop) (hpred : ∀ u b s1, pred u = .ok (b, s1) → P u → P s1)
    (timeout : Option ℚ) (t : ℚ) (δs : List ℚ) (fuel : Nat) (s : σ) (hP : P s) :
    P (waitFor pred timeout t δs fuel s).final := by
  unfold waitFor
  cases hp : pred s with
  | error e =>
    simp only [hp]
    exact hP
  | ok bs =>
    obtain ⟨b, s1⟩ := bs
    cases b with
    | true =>
      simp only [hp]
      exact hpred s true s1 hp hP
    | false =>
      simp only [hp]
      exact waitForLoop_keeps pred P hpred fuel timeout none t δs s1 1 0
        (hpred s false s1 hp hP)

/-- Claim C7: a read or write acquisition that times out returns the shared
state exactly as it found it, and a write acquisition restores `waiting` to
its pre-call value on every exit path (success, timeout, raised upgrade
error, or even model fuel exhaustion), since the increment is undone in the
`finally` block. -/
theorem failedAcquireFrame (me : Tid) (timeout : Option ℚ) (t : ℚ) (δs : List ℚ)
    (fuel : Nat) (s : LockState) :
    ((acquireRead me timeout t δs fuel s).status = .timedOut →
      (acquireRead me timeout t δs fuel s).final = s) ∧
    ((acquireWrite me timeout t δs fuel s).status = .timedOut →
      (acquireWrite me timeout t δs fuel s).final = s) ∧
    (acquireWrite me timeout t δs fuel s).final.waiting = s.waiting := by
  refine ⟨?_, ?_, ?_⟩
  · intro hst
    exact waitFor_frame (acquireReadStep me) (fun u s1 h => acquireReadStep_false_eq h) timeout t δs fuel s
      (fun hsucc => WaitStatus.noConfusion (hst.symm.trans hsucc))
  · intro hst
    have hin := waitFor_frame (acquireWriteStep me) (fun u s1 h => acquireWriteStep_false_eq h) timeout t δs fuel
      { s with waiting := s.waiting + 1 }
      (fun hsucc => WaitStatus.noConfusion (hst.symm.trans hsucc))
    show { (waitFor (acquireWriteStep me) timeout t δs fuel
             { s with waiting := s.waiting + 1 }).final with
           waiting := (waitFor (acquireWriteStep me) timeout t δs fuel
             { s with waiting := s.waiting + 1 }).final.waiting - 1 } = s
    rw [hin]
    simp [add_sub_cancel_right]
  · have hin := waitFor_keeps (acquireWriteStep me) (fun u => u.waiting = s.waiting + 1)
      (fun u b s1 h hP => (acquireWriteStep_waiting h).trans hP)
      timeout t δs fuel { s with waiting := s.waiting + 1 } rfl
    show (waitFor (acquireWriteStep me) timeout t δs fuel
           { s with waiting := s.waiting + 1 }).final.waiting - 1 = s.waiting
    rw [hin]
    omega

/-- Concrete runs of the claim C7 theorem: a reader timing out against a
pending writer leaves the state untouched, and a timed-out writer ends with
`waiting` back at zero. -/
theorem failedAcquireFrame_check :
    (acquireRead 7 (some 0) 0 [] 2 ⟨1, 1, [3]⟩).final = ⟨1, 1, [3]⟩ ∧
    (acquireWrite 7 (some 0) 0 [] 2 ⟨1, 0, [3]⟩).final.waiting = 0 := by
  have h1 := failedAcquireFrame 7 (some 0) 0 [] 2 ⟨1, 1, [3]⟩
  have h2 := failedAcquireFrame 7 (some 0) 0 [] 2 ⟨1, 0, [3]⟩
  refine ⟨h1.1 ?_, h2.2.2⟩
  simp [acquireRead, waitFor, waitForLoop, waitForCheck, acquireReadStep]

/-- Claim C9 (amended): with the expired sentinel `timeout = 0`, `wait_for`
evaluates the predicate once and, if it holds, returns success with no wait;
if it does not hold, the loop still performs one zero-timeout `cond.wait`,
evaluates the predicate a second time, and only then breaks — so a failing
call makes exactly two predicate evaluations and one wait, not one and
none. -/
theorem waitForExpiredSentinel {σ : Type} (pred : σ → Except LockError (Bool × σ))
    (t : ℚ) (δs : List ℚ) (fuel : Nat) (s : σ) (hδ : 0 ≤ δs.headD 0) :
    (∀ s1, pred s = .ok (true, s1) →
      waitFor pred (some 0) t δs fuel s = ⟨.success, s1, 1, 0⟩) ∧
    (pred s = .ok (false, s) →
      waitFor pred (some 0) t δs (fuel + 2) s = ⟨.timedOut, s, 2, 1⟩) := by
  constructor
  · intro s1 hp
    unfold waitFor
    rw [hp]
  · intro hp
    have hcond : (t + 0) - (t + δs.headD 0) ≤ 0 := by linarith
    unfold waitFor
    rw [hp]
    show waitForLoop pred (some 0) none t δs s 1 0 (fuel + 2) = ⟨.timedOut, s, 2, 1⟩
    simp only [waitForLoop, waitForCheck, hp]
    rw [if_pos hcond]

/-- Concrete run of the claim C9 amended theorem: a reader blocked behind a
waiting writer, called with the expired sentinel, times out after two
predicate evaluations and one zero-length wait. -/
theorem waitForExpiredSentinel_check :
    waitFor (acquireReadStep 2) (some 0) 0 [0] 2 ⟨0, 1, []⟩ =
      ⟨.timedOut, ⟨0, 1, []⟩, 2, 1⟩ :=
  (waitForExpiredSentinel (acquireReadStep 2) 0 [0] 0 ⟨0, 1, []⟩ (by decide)).2 (by rfl)

/-- Claim C9 counterexample: the same expired-sentinel run evaluated
concretely performs two predicate evaluations and one `cond.wait`, refuting
the claim that the predicate is evaluated exactly once with no wait. -/
theorem waitForExpiredSentinel_counterexample :
    waitFor (acquireReadStep 2) (some 0) 0 [0] 5 ⟨0, 1, []⟩ =
      ⟨.timedOut, ⟨0, 1, []⟩, 2, 1⟩ ∧
    ¬ ((waitFor (acquireReadStep 2) (some 0) 0 [0] 5 ⟨0, 1, []⟩).evals = 1 ∧
       (waitFor (acquireReadStep 2) (some 0) 0 [0] 5 ⟨0, 1, []⟩).waits = 0) := by
  have hrun : waitFor (acquireReadStep 2) (some 0) 0 [0] 5 ⟨0, 1, []⟩ =
      ⟨.timedOut, ⟨0, 1, []⟩, 2, 1⟩ := by
    simp [waitFor, waitForLoop, waitForCheck, acquireReadStep]
  refine ⟨hrun, ?_⟩
  rw [hrun]
  simp

end RWLockCore

/-- Claim C8 (amended): the handle translation errors exactly when the
timeout is negative and different from -1 (so also for fractional values in
(-1, 0), not only for timeout < -1) or when a positive timeout is paired
with non-blocking; under blocking=true the only accepted negative value, -1,
maps to an indefinite wait (none) and every timeout ≥ 0 maps to a bounded
wait of that duration; under blocking=false the accepted values -1 and 0 map
to the expired sentinel 0. -/
theorem timeoutConvSpec (b : Bool) (q : ℚ) :
    ((∃ e, ReaderLock.timeoutConv b q = .error e) ↔
      ((q < 0 ∧ q ≠ -1) ∨ (b = false ∧ 0 < q))) ∧
    (b = true → q = -1 → ReaderLock.timeoutConv b q = .ok none) ∧
    (b = true → 0 ≤ q → ReaderLock.timeoutConv b q = .ok (some q)) ∧
    (b = false → q = -1 ∨ q = 0 → ReaderLock.timeoutConv b q = .ok (some 0)) ∧
    (q < 0 → q ≠ -1 → ReaderLock.timeoutConv b q = .error .invalidTimeout) ∧
    (b = false → 0 < q → ReaderLock.timeoutConv b q = .error .nonBlockingTimeout) := by
  unfold ReaderLock.timeoutConv
  refine ⟨⟨?_, ?_⟩, ?_, ?_, ?_, ?_, ?_⟩
  · rintro ⟨e, he⟩
    by_cases h1 : q < 0 ∧ q ≠ -1
    · exact Or.inl h1
    · rw [if_neg h1] at he
      cases b
      · by_cases h2 : 0 < q
        · exact Or.inr ⟨rfl, h2⟩
        · rw [if_neg (by simp), if_neg h2] at he
          exact absurd he (by simp)
      · rw [if_pos rfl] at he
        exact absurd he (by simp)
  · intro h
    rcases h with ⟨hq, hne⟩ | ⟨hb, hq⟩
    · exact ⟨.invalidTimeout, by rw [if_pos ⟨hq, hne⟩]⟩
    · subst hb
      by_cases h1 : q < 0 ∧ q ≠ -1
      · exact ⟨.invalidTimeout, by rw [if_pos h1]⟩
      · exact ⟨.nonBlockingTimeout, by rw [if_neg h1, if_neg (by simp), if_pos hq]⟩
  · intro hb hq
    subst hb
    subst hq
    rw [if_neg (by rintro ⟨-, hne⟩; exact hne rfl), if_pos rfl,
        if_neg (by norm_num)]
  · intro hb hq
    subst hb
    have h1 : ¬ (q < 0 ∧ q ≠ -1) := by
      rintro ⟨hlt, -⟩
      exact absurd hq (not_le.mpr hlt)
    rw [if_neg h1, if_pos rfl, if_pos hq]
  · intro hb hq
    subst hb
    rcases hq with hq | hq <;> subst hq
    · rw [if_neg (by rintro ⟨-, hne⟩; exact hne rfl), if_neg (by simp),
          if_neg (by norm_num)]
    · rw [if_neg (by rintro ⟨hlt, -⟩; exact absurd hlt (by norm_num)),
          if_neg (by simp), if_neg (by norm_num)]
  · intro hlt hne
    rw [if_pos ⟨hlt, hne⟩]
  · intro hb hq
    subst hb
    have h1 : ¬ (q < 0 ∧ q ≠ -1) := by
      rintro ⟨hlt, -⟩
      exact absurd hq (not_lt.mpr hlt.le)
    rw [if_neg h1, if_neg (by simp), if_pos hq]

/-- Concrete runs of the claim C8 amended theorem: blocking with -1 waits
forever, blocking with 3 waits 3, non-blocking with 0 is the sentinel. -/
theorem timeoutConvSpec_check :
    ReaderLock.timeoutConv true (-1) = .ok none ∧
    ReaderLock.timeoutConv true 3 = .ok (some 3) ∧
    ReaderLock.timeoutConv false 0 = .ok (some 0) :=
  ⟨(timeoutConvSpec true (-1)).2.1 rfl rfl,
   (timeoutConvSpec true 3).2.2.1 rfl (by decide),
   (timeoutConvSpec false 0).2.2.2.1 rfl (Or.inr rfl)⟩

/-- Claim C8 counterexample: the fractional timeout -1/2 is negative but not
below -1, yet the translation raises the invalid-timeout error even with
blocking=true instead of mapping it to an indefinite wait. -/
theorem timeoutConvCounterexample :
    ReaderLock.timeoutConv true (-1/2) = .error .invalidTimeout ∧
    ¬ ((-1/2 : ℚ) < -1) ∧ (-1/2 : ℚ) < 0 := by
  refine ⟨?_, by norm_num, by norm_num⟩
  unfold ReaderLock.timeoutConv
  rw [if_pos ⟨by norm_num, by norm_num⟩]
